import Mathlib

/-!
# TaskWeave: verification of the task-graph engine against its specification

This file gives a shallow embedding of the TaskWeave typed dataflow task
engine (`src/TaskWeave/*.h`, `src/Executor/*.h`) and proves or refutes the
specification's claims about it.

The embedding follows the C++ sources:

* `set_reachability` / `compute_reachability` embed
  `Node::set_reachability(TraverseMarkerT&)` (Node.h) and
  `compute_reachability` (Helper.h).  Node identity (the C++ node address
  used as the traverse-marker key) becomes a natural-number node id; the
  per-node tuple of inward-edge pointers becomes a list of optional
  producer ids (`none` = null edge slot).  The C++ recursion has no
  explicit bound; the embedding threads a fuel argument, and the theorems
  assume the fuel exceeds every relevant dependency depth, which is exactly
  the termination condition of the C++ recursion on an acyclic graph.
* `run_events` embeds the order of effects inside `Task::run` (Task.h).
* `set_data` / `get_data` embed `Edge<T>` (Edge.h, IEdge.h).
* `add_task`, `clear_queued_tasks`, `execute_task` and the trace semantics
  embed `ThreadPool` (ThreadPool.h); the pool is modelled sequentially,
  one event (a submission, a worker draining one closure, or a
  cancellation) at a time.
* The scenario-S2 executor embeds `ThreadPoolExecutor::run`
  (ThreadPoolExecutor.h) specialised to the five-task linear chain.
-/

namespace TaskWeave

/-! ## Graph model for reachability

A `Graph` records, for every node id, the positional list of inward edge
slots exactly as `Node<Out, In...>` stores its tuple of edge pointers:
`none` models a null edge pointer, `some p` models an edge owned by the
producer node `p` (the C++ `edge->get_owner()`).  A node whose slot list is
empty models the `Node<OutwardT>` root specialisation, whose
`get_reachability()` is the literal `0` and whose `set_reachability` only
marks the node as visited. -/
structure Graph where
  slots : Nat → List (Option Nat)

/-- The mutable state threaded through the reachability pass: the traverse
marker (`INode::TraverseMarkerT`, a set of node addresses) and every node's
`reachability_` member (zero-initialised in the C++ class). -/
structure ReachState where
  marker : List Nat
  reach : Nat → Nat

/-- `Node::get_reachability()`: the root specialisation returns the literal
`0`; the general template returns the stored `reachability_` member. -/
def get_reachability (g : Graph) (st : ReachState) (n : Nat) : Nat :=
  if (g.slots n).isEmpty then 0 else st.reach n

/-- One iteration of the inward-edge loop inside
`Node::set_reachability(TraverseMarkerT&)` (Node.h, lines 247-256): a null
edge slot contributes reachability `0`; a slot owned by producer `p` first
recurses into `p` (`node->set_reachability(traverse_marker)`) and then reads
`node->get_reachability()`.  `recurse` is the recursive call at the current
fuel level. -/
def visit_slot (g : Graph) (recurse : Nat → ReachState → ReachState)
    (acc : ReachState × List Nat) (slot : Option Nat) : ReachState × List Nat :=
  match slot with
  | none => (acc.1, acc.2 ++ [0])
  | some p =>
    let st2 := recurse p acc.1
    (st2, acc.2 ++ [get_reachability g st2 p])

/-- `Node::set_reachability(TraverseMarkerT&)` (Node.h).  If the node is
already in the traverse marker, return at once.  Otherwise mark it; a root
node (empty slot list, the `Node<OutwardT>` specialisation) does nothing
more, and a node of the general template walks its inward edges in
positional order collecting their reachabilities, then sets its own
`reachability_` to the maximum of the collected values plus one.  The C++
recursion carries no bound; `fuel` bounds the recursion depth and is
assumed large enough by every theorem below. -/
def set_reachability (g : Graph) : Nat → Nat → ReachState → ReachState
  | 0, _, st => st
  | fuel + 1, n, st =>
    if n ∈ st.marker then st
    else if (g.slots n).isEmpty then ⟨n :: st.marker, st.reach⟩
    else
      let res := (g.slots n).foldl (visit_slot g (set_reachability g fuel))
        (⟨n :: st.marker, st.reach⟩, [])
      ⟨res.1.marker, fun m => if m = n then res.2.foldr max 0 + 1 else res.1.reach m⟩

/-- `compute_reachability` (Helper.h): create a fresh traverse marker and
call `set_reachability` with it on every task of the submitted range in
order.  `reach0` is the contents of the nodes' `reachability_` members
before the pass (all zero on first use). -/
def compute_reachability (g : Graph) (fuel : Nat) (tasks : List Nat)
    (reach0 : Nat → Nat) : ReachState :=
  tasks.foldl (fun st t => set_reachability g fuel t st) ⟨[], reach0⟩

/-- The reachability contributed by one inward edge slot under the spec's
depth function `d`: a null slot contributes `0`, a slot with producer `p`
contributes `d p`. -/
def contrib (d : Nat → Nat) : Option Nat → Nat
  | none => 0
  | some p => d p

/-- The specification's depth function: `d` satisfies `DepthSpec` when
`d n = 0` for nodes with zero inward edges and otherwise
`d n = 1 + max` of the contributions of the node's inward edge slots.
The existence of such a `d` is the spec's well-formed-DAG assumption (it
rules out dependency cycles). -/
def DepthSpec (g : Graph) (d : Nat → Nat) : Prop :=
  ∀ n, if (g.slots n).isEmpty then d n = 0
    else d n = ((g.slots n).map (contrib d)).foldr max 0 + 1

/-- A graph is wired when no inward edge slot is a null pointer, so every
slot holds an edge with a producer node; under `Wired` the `DepthSpec`
recurrence is exactly the claim's
`d(n) = 1 + max { d(producer(e)) : e inward edge of n }`. -/
def Wired (g : Graph) : Prop :=
  ∀ n, ∀ s ∈ g.slots n, s ≠ none

/-- Node `m`'s cached reachability agrees with the spec depth `d`. -/
def ReachAgrees (g : Graph) (d : Nat → Nat) (st : ReachState) (m : Nat) : Prop :=
  get_reachability g st m = d m

/-- `ReachAgrees` only looks at the node's own stored value, so it is
preserved by any state change that leaves that value alone. -/
theorem ReachAgrees.frame {g : Graph} {d : Nat → Nat} {st st' : ReachState} {m : Nat}
    (h : ReachAgrees g d st m) (hfr : st'.reach m = st.reach m) :
    ReachAgrees g d st' m := by
  unfold ReachAgrees get_reachability at h ⊢
  rcases hem : (g.slots m).isEmpty with _ | _ <;>
    simp only [hem, Bool.false_eq_true, if_false, if_true] at h ⊢
  · rw [hfr]; exact h
  · exact h

theorem le_foldr_max {x : Nat} : ∀ {l : List Nat}, x ∈ l → x ≤ l.foldr max 0
  | a :: l, h => by
    rcases List.mem_cons.mp h with h | h
    · subst h; exact Nat.le_max_left _ _
    · exact Nat.le_trans (le_foldr_max h) (Nat.le_max_right _ _)

/-- Every producer appearing in a node's slot list has strictly smaller
spec depth than the node itself. -/
theorem contrib_lt_depth {g : Graph} {d : Nat → Nat} (hd : DepthSpec g d)
    {n p : Nat} (hp : some p ∈ g.slots n) : d p < d n := by
  have h := hd n
  rcases hne : (g.slots n).isEmpty with _ | _
  · rw [hne] at h
    simp only [if_false, Bool.false_eq_true] at h
    have hmem : d p ∈ (g.slots n).map (contrib d) := by
      have : contrib d (some p) = d p := rfl
      exact this ▸ List.mem_map_of_mem (contrib d) hp
    have := le_foldr_max hmem
    omega
  · rw [List.isEmpty_iff] at hne
    rw [hne] at hp
    simp at hp

/-- Shape of the guarantees offered by one `set_reachability` call on node
`p` starting from state `st`: the marker grows, `p` ends up marked, reach
values of previously marked nodes are untouched, and every marked node is
either an old one or a newly settled node of depth at most `d p`. -/
def VisitOK (g : Graph) (d : Nat → Nat) (p : Nat) (st out : ReachState) : Prop :=
  (∀ m ∈ st.marker, m ∈ out.marker) ∧ p ∈ out.marker ∧
    (∀ m ∈ st.marker, out.reach m = st.reach m) ∧
    (∀ m ∈ out.marker, m ∈ st.marker ∨ (d m ≤ d p ∧ ReachAgrees g d out m))

/-- Soundness of the inward-edge loop of `set_reachability`, for an
arbitrary recursion function `f` that is sound on every node of depth
below the bound `B` (the depth of the node whose slots are being walked). -/
theorem foldl_visit_sound (g : Graph) (d : Nat → Nat)
    (f : Nat → ReachState → ReachState) (B : Nat)
    (hf : ∀ p st, d p < B → (∀ m ∈ st.marker, d m ≤ d p → ReachAgrees g d st m) →
      VisitOK g d p st (f p st)) :
    ∀ (ss : List (Option Nat)) (st0 : ReachState) (acc : List Nat),
      (∀ p, some p ∈ ss → d p < B) →
      (∀ m ∈ st0.marker, d m < B → ReachAgrees g d st0 m) →
      (∀ m ∈ st0.marker, m ∈ (ss.foldl (visit_slot g f) (st0, acc)).1.marker) ∧
      (∀ m ∈ st0.marker,
        (ss.foldl (visit_slot g f) (st0, acc)).1.reach m = st0.reach m) ∧
      (∀ m ∈ (ss.foldl (visit_slot g f) (st0, acc)).1.marker,
        m ∈ st0.marker ∨
          (d m < B ∧ ReachAgrees g d (ss.foldl (visit_slot g f) (st0, acc)).1 m)) ∧
      (∀ m ∈ (ss.foldl (visit_slot g f) (st0, acc)).1.marker,
        d m < B → ReachAgrees g d (ss.foldl (visit_slot g f) (st0, acc)).1 m) ∧
      (ss.foldl (visit_slot g f) (st0, acc)).2 = acc ++ ss.map (contrib d) := by
  intro ss
  induction ss with
  | nil =>
    intro st0 acc _ hinv
    refine ⟨fun m hm => hm, fun m _ => rfl, fun m hm => Or.inl hm, hinv, by simp⟩
  | cons s rest ih =>
    intro st0 acc hbound hinv
    match s with
    | none =>
      have hstep : visit_slot g f (st0, acc) none = (st0, acc ++ [0]) := rfl
      have hb : ∀ p, some p ∈ rest → d p < B := fun p hp => hbound p (List.mem_cons_of_mem _ hp)
      have := ih st0 (acc ++ [0]) hb hinv
      simpa [List.foldl_cons, hstep, contrib] using this
    | some p =>
      have hp : d p < B := hbound p (List.mem_cons_self _ _)
      have hentry : ∀ m ∈ st0.marker, d m ≤ d p → ReachAgrees g d st0 m :=
        fun m hm hle => hinv m hm (Nat.lt_of_le_of_lt hle hp)
      obtain ⟨hsub, hpmem, hframe, hnew⟩ := hf p st0 hp hentry
      have hagree_p : ReachAgrees g d (f p st0) p := by
        rcases hnew p hpmem with hold | ⟨_, ha⟩
        · exact (hinv p hold hp).frame (hframe p hold)
        · exact ha
      have hstep : visit_slot g f (st0, acc) (some p) =
          (f p st0, acc ++ [get_reachability g (f p st0) p]) := rfl
      have hinv1 : ∀ m ∈ (f p st0).marker, d m < B → ReachAgrees g d (f p st0) m := by
        intro m hm hmB
        rcases hnew m hm with hold | ⟨_, ha⟩
        · exact (hinv m hold hmB).frame (hframe m hold)
        · exact ha
      have hb : ∀ q, some q ∈ rest → d q < B := fun q hq => hbound q (List.mem_cons_of_mem _ hq)
      obtain ⟨isub, iframe, inew, iinv, iacc⟩ :=
        ih (f p st0) (acc ++ [get_reachability g (f p st0) p]) hb hinv1
      rw [List.foldl_cons, hstep]
      refine ⟨?_, ?_, ?_, iinv, ?_⟩
      · exact fun m hm => isub m (hsub m hm)
      · intro m hm
        rw [iframe m (hsub m hm), hframe m hm]
      · intro m hm
        rcases inew m hm with hmid | ⟨hB, ha⟩
        · rcases hnew m hmid with hold | ⟨hdp, ha⟩
          · exact Or.inl hold
          · exact Or.inr ⟨Nat.lt_of_le_of_lt hdp hp, ha.frame (iframe m hmid)⟩
        · exact Or.inr ⟨hB, ha⟩
      · rw [iacc, hagree_p]
        simp [contrib]

/-- Soundness of `Node::set_reachability(TraverseMarkerT&)` on a graph
admitting a spec depth function `d`: provided the fuel exceeds the node's
depth and every already-marked node of depth at most `d n` is settled, the
call marks `n`, leaves previously marked nodes' values alone, and every
marked node of the output is either an old one or a settled node of depth
at most `d n` — in particular `n` itself ends up settled at `d n`. -/
theorem set_reachability_sound (g : Graph) (d : Nat → Nat) (hd : DepthSpec g d) :
    ∀ (fuel n : Nat) (st : ReachState), d n < fuel →
      (∀ m ∈ st.marker, d m ≤ d n → ReachAgrees g d st m) →
      VisitOK g d n st (set_reachability g fuel n st) := by
  intro fuel
  induction fuel with
  | zero => intro n st h; omega
  | succ fuel ih =>
    intro n st hfuel hentry
    by_cases hmem : n ∈ st.marker
    · rw [set_reachability, if_pos hmem]
      exact ⟨fun m hm => hm, hmem, fun m _ => rfl, fun m hm => Or.inl hm⟩
    · rcases hem : (g.slots n).isEmpty with _ | _
      · -- general template: at least one inward edge slot
        have hdn := hd n
        rw [hem] at hdn
        simp only [if_false, Bool.false_eq_true] at hdn
        have hf : ∀ p st', d p < d n →
            (∀ m ∈ st'.marker, d m ≤ d p → ReachAgrees g d st' m) →
            VisitOK g d p st' (set_reachability g fuel p st') := by
          intro p st' hp hentry'
          exact ih p st' (by omega) hentry'
        have hbound : ∀ p, some p ∈ g.slots n → d p < d n :=
          fun p hp => contrib_lt_depth hd hp
        have hinv0 : ∀ m ∈ ({ marker := n :: st.marker, reach := st.reach } : ReachState).marker,
            d m < d n → ReachAgrees g d ⟨n :: st.marker, st.reach⟩ m := by
          intro m hm hmd
          rcases List.mem_cons.mp hm with rfl | hm
          · omega
          · exact hentry m hm (Nat.le_of_lt hmd)
        obtain ⟨hsub, hframe, hnew, hinvf, hacc⟩ :=
          foldl_visit_sound g d (set_reachability g fuel) (d n) hf (g.slots n)
            ⟨n :: st.marker, st.reach⟩ [] hbound hinv0
        rw [set_reachability, if_neg hmem, hem]
        simp only [Bool.false_eq_true, if_false]
        set res := (g.slots n).foldl (visit_slot g (set_reachability g fuel))
          (⟨n :: st.marker, st.reach⟩, []) with hres
        have hreachn : res.2.foldr max 0 + 1 = d n := by
          rw [hacc]; simp only [List.nil_append]; omega
        have hagree_n :
            ReachAgrees g d ⟨res.1.marker,
              fun m => if m = n then res.2.foldr max 0 + 1 else res.1.reach m⟩ n := by
          unfold ReachAgrees get_reachability
          rw [hem]
          simp only [Bool.false_eq_true, if_false, if_pos rfl]
          exact hreachn
        refine ⟨?_, ?_, ?_, ?_⟩
        · exact fun m hm => hsub m (List.mem_cons_of_mem _ hm)
        · exact hsub n (List.mem_cons_self _ _)
        · intro m hm
          have hmn : m ≠ n := fun h => hmem (h ▸ hm)
          simp only [if_neg hmn]
          exact hframe m (List.mem_cons_of_mem _ hm)
        · intro m hm
          rcases hnew m hm with hm0 | ⟨hmd, ha⟩
          · rcases List.mem_cons.mp hm0 with rfl | hmold
            · exact Or.inr ⟨Nat.le_refl _, hagree_n⟩
            · exact Or.inl hmold
          · have hmn : m ≠ n := by rintro rfl; omega
            exact Or.inr ⟨Nat.le_of_lt hmd, ha.frame (by simp only [if_neg hmn])⟩
      · -- root specialisation: no inward edges, only mark the node
        have hdn := hd n
        rw [hem] at hdn
        simp only [if_true] at hdn
        rw [set_reachability, if_neg hmem, hem]
        simp only [if_true]
        have hagree_n : ReachAgrees g d ⟨n :: st.marker, st.reach⟩ n := by
          unfold ReachAgrees get_reachability
          rw [hem]
          simp only [if_true]
          omega
        refine ⟨fun m hm => List.mem_cons_of_mem _ hm, List.mem_cons_self _ _,
          fun m _ => rfl, ?_⟩
        intro m hm
        rcases List.mem_cons.mp hm with rfl | hmold
        · exact Or.inr ⟨Nat.le_refl _, hagree_n⟩
        · exact Or.inl hmold

/-- Soundness of the whole reachability pass: starting from any state whose
marked nodes are all settled, the fold of `set_reachability` over the
submitted tasks marks every task and leaves every marked node settled. -/
theorem reach_pass_sound (g : Graph) (d : Nat → Nat) (hd : DepthSpec g d) (fuel : Nat) :
    ∀ (tasks : List Nat) (st : ReachState), (∀ t ∈ tasks, d t < fuel) →
      (∀ m ∈ st.marker, ReachAgrees g d st m) →
      (∀ m ∈ st.marker,
        m ∈ (tasks.foldl (fun st t => set_reachability g fuel t st) st).marker) ∧
      (∀ t ∈ tasks,
        t ∈ (tasks.foldl (fun st t => set_reachability g fuel t st) st).marker) ∧
      (∀ m ∈ (tasks.foldl (fun st t => set_reachability g fuel t st) st).marker,
        ReachAgrees g d (tasks.foldl (fun st t => set_reachability g fuel t st) st) m) := by
  intro tasks
  induction tasks with
  | nil =>
    intro st _ hinv
    exact ⟨fun m hm => hm, fun t ht => absurd ht (List.not_mem_nil t), hinv⟩
  | cons t rest ih =>
    intro st hfuel hinv
    have ht : d t < fuel := hfuel t (List.mem_cons_self _ _)
    obtain ⟨hsub, htmem, hframe, hnew⟩ :=
      set_reachability_sound g d hd fuel t st ht (fun m hm _ => hinv m hm)
    have hinv1 : ∀ m ∈ (set_reachability g fuel t st).marker,
        ReachAgrees g d (set_reachability g fuel t st) m := by
      intro m hm
      rcases hnew m hm with hold | ⟨_, ha⟩
      · exact (hinv m hold).frame (hframe m hold)
      · exact ha
    have hb : ∀ u ∈ rest, d u < fuel := fun u hu => hfuel u (List.mem_cons_of_mem _ hu)
    obtain ⟨isub, itasks, iinv⟩ := ih (set_reachability g fuel t st) hb hinv1
    rw [List.foldl_cons]
    refine ⟨fun m hm => isub m (hsub m hm), ?_, iinv⟩
    intro u hu
    rcases List.mem_cons.mp hu with rfl | hu
    · exact isub u htmem
    · exact itasks u hu

/-- **C1.** For every node in a well-formed DAG (all slots wired, spec
depth function `d` exists), after the executor's reachability pass
(`compute_reachability` over the submitted set, with enough fuel for the
C++ recursion to complete) the node's cached reachability equals `d n`,
where `d n = 0` for nodes with zero inward edges and otherwise
`d n = 1 + max` of `d` over the producers of the node's inward edges. -/
theorem C1_reachability_equals_depth (g : Graph) (d : Nat → Nat)
    (hd : DepthSpec g d) (_hw : Wired g) (fuel : Nat) (tasks : List Nat)
    (reach0 : Nat → Nat) (hfuel : ∀ t ∈ tasks, d t < fuel) :
    ∀ n ∈ tasks,
      get_reachability g (compute_reachability g fuel tasks reach0) n = d n := by
  intro n hn
  obtain ⟨_, htasks, hinv⟩ :=
    reach_pass_sound g d hd fuel tasks ⟨[], reach0⟩ hfuel
      (fun m hm => absurd hm (List.not_mem_nil m))
  exact hinv n (htasks n hn)

/-- **C9.** `compute_reachability` is deterministic and idempotent over the
graph structure: a second pass over the same task set — in any order, and
starting from the reachability values the first pass left behind — assigns
every node of the set exactly the value the first pass assigned. -/
theorem C9_reachability_deterministic (g : Graph) (d : Nat → Nat)
    (hd : DepthSpec g d) (fuel : Nat) (tasks tasks2 : List Nat)
    (reach0 : Nat → Nat) (hfuel : ∀ t ∈ tasks, d t < fuel)
    (hsame : ∀ n, n ∈ tasks ↔ n ∈ tasks2) :
    ∀ n ∈ tasks,
      get_reachability g
        (compute_reachability g fuel tasks2
          (compute_reachability g fuel tasks reach0).reach) n =
      get_reachability g (compute_reachability g fuel tasks reach0) n := by
  intro n hn
  have hfuel2 : ∀ t ∈ tasks2, d t < fuel := by
    intro t ht
    exact hfuel t ((hsame t).mpr ht)
  obtain ⟨_, htasks1, hinv1⟩ :=
    reach_pass_sound g d hd fuel tasks ⟨[], reach0⟩ hfuel
      (fun m hm => absurd hm (List.not_mem_nil m))
  obtain ⟨_, htasks2, hinv2⟩ :=
    reach_pass_sound g d hd fuel tasks2
      ⟨[], (compute_reachability g fuel tasks reach0).reach⟩ hfuel2
      (fun m hm => absurd hm (List.not_mem_nil m))
  have h1 : get_reachability g (compute_reachability g fuel tasks reach0) n = d n :=
    hinv1 n (htasks1 n hn)
  have h2 : get_reachability g
      (compute_reachability g fuel tasks2
        (compute_reachability g fuel tasks reach0).reach) n = d n :=
    hinv2 n (htasks2 n ((hsame n).mp hn))
  exact h2.trans h1.symm

/-! ## The scenario-S2 linear chain of five tasks

Tasks `T0 .. T4`; `T0` has no inputs, and each `Ti` (i = 1..4) has one
`int` input slot wired to `T(i-1)`'s outward edge. -/

/-- The dependency graph of scenario S2: node `i+1`'s single inward edge is
owned by node `i`, for `i = 0..3`; every other node has no inward edges. -/
def chainG : Graph :=
  ⟨fun n => match n with
    | 1 => [some 0]
    | 2 => [some 1]
    | 3 => [some 2]
    | 4 => [some 3]
    | _ => []⟩

/-- The spec depth function of the chain: node `i` (i ≤ 4) has depth `i`. -/
def chain_depth : Nat → Nat :=
  fun n => match n with
    | 0 => 0
    | 1 => 1
    | 2 => 2
    | 3 => 3
    | 4 => 4
    | _ => 0

theorem chainG_depth : DepthSpec chainG chain_depth := by
  intro n
  match n with
  | 0 => decide
  | 1 => decide
  | 2 => decide
  | 3 => decide
  | 4 => decide
  | (m + 5) => exact rfl

theorem chainG_wired : Wired chainG := by
  intro n s hs
  match n with
  | 0 => simp [chainG] at hs
  | 1 => simp [chainG] at hs; simp [hs]
  | 2 => simp [chainG] at hs; simp [hs]
  | 3 => simp [chainG] at hs; simp [hs]
  | 4 => simp [chainG] at hs; simp [hs]
  | (m + 5) => simp [chainG] at hs

/-- Witness for C1: on the concrete five-task chain, the reachability pass
over the set `{0,1,2,3,4}` caches depth `3` at node `3`. -/
theorem C1_witness :
    get_reachability chainG
      (compute_reachability chainG 6 [0, 1, 2, 3, 4] (fun _ => 0)) 3 =
      chain_depth 3 :=
  C1_reachability_equals_depth chainG chain_depth chainG_depth chainG_wired 6
    [0, 1, 2, 3, 4] (fun _ => 0) (by decide) 3 (by decide)

/-- Witness for C9: rerunning the pass on the chain, with the task set in a
different order and starting from the first pass's cached values, leaves
node `4`'s cached reachability unchanged. -/
theorem C9_witness :
    get_reachability chainG
      (compute_reachability chainG 6 [4, 2, 0, 3, 1]
        (compute_reachability chainG 6 [0, 1, 2, 3, 4] (fun _ => 0)).reach) 4 =
    get_reachability chainG
      (compute_reachability chainG 6 [0, 1, 2, 3, 4] (fun _ => 0)) 4 :=
  C9_reachability_deterministic chainG chain_depth chainG_depth 6
    [0, 1, 2, 3, 4] [4, 2, 0, 3, 1] (fun _ => 0) (by decide)
    (by intro n; simp [List.mem_cons]; omega) 4 (by decide)

/-! ## Order of effects inside `Task::run`

`Task<ReturnT, InputTs...>::run()` and the `Task<void, ...>` specialisation
(Task.h) perform, on the worker thread running the node, the same sequence
of steps; `run_events` lists them in source order.  A reachable observation
point of the execution is a prefix of this list. -/

/-- One observable step of `Task::run`. -/
inductive RunEvent where
  /-- `edge->wait_until_retrievable()` on the non-null inward edge in
  positional slot `i`. -/
  | awaitEdge (i : Nat)
  /-- `set_state(TaskState::Running)`. -/
  | setRunning
  /-- `set_start_time(std::chrono::steady_clock::now())`. -/
  | recordStart
  /-- invocation and return of the stored callable (`callable_(...)`),
  including storing `result_`. -/
  | callCallable
  /-- `set_end_time(std::chrono::steady_clock::now())`. -/
  | recordEnd
  /-- `SuperNode::set_out_edge_data(...)`: producing (latching) the
  outward edge. -/
  | produceOut
  /-- `set_state(TaskState::Complete)`. -/
  | setComplete
  /-- `cv_.notify_one()` under the per-task mutex. -/
  | notifyWaiters
deriving DecidableEq

/-- The tail of `Task::run` after the await loop, in the source order of
Task.h lines 87-102 (and identically lines 243-258 for `Task<void>`):
state to Running, start timestamp, callable, **end timestamp**, produce on
the outward edge, state to Complete, notify. -/
def run_tail : List RunEvent :=
  [RunEvent.setRunning, RunEvent.recordStart, RunEvent.callCallable,
   RunEvent.recordEnd, RunEvent.produceOut, RunEvent.setComplete,
   RunEvent.notifyWaiters]

/-- The ordered steps of one execution of `Task::run` for a task whose
inward edge slots are `slots` (`none` = null pointer): the await loop
visits the slots in positional order and skips null ones (`if (edge)`),
then the fixed tail runs. -/
def run_events (slots : List (Option Nat)) : List RunEvent :=
  (slots.enum.filterMap fun p =>
    if p.2.isSome then some (RunEvent.awaitEdge p.1) else none) ++ run_tail

theorem awaits_only_awaitEdge (slots : List (Option Nat)) :
    ∀ e ∈ (slots.enum.filterMap fun p =>
      if p.2.isSome then some (RunEvent.awaitEdge p.1) else none),
      ∃ i, e = RunEvent.awaitEdge i := by
  intro e he
  obtain ⟨p, _, hp⟩ := List.mem_filterMap.mp he
  rcases hsm : p.2.isSome with _ | _
  · rw [hsm] at hp; simp at hp
  · rw [hsm] at hp
    simp only [if_true, Option.some.injEq] at hp
    exact ⟨p.1, hp.symm⟩

theorem run_tail_take_order :
    ∀ k, (RunEvent.produceOut ∈ run_tail.take k →
        RunEvent.callCallable ∈ run_tail.take k) ∧
      (RunEvent.setComplete ∈ run_tail.take k →
        RunEvent.produceOut ∈ run_tail.take k) := by
  intro k
  match k with
  | 0 => decide
  | 1 => decide
  | 2 => decide
  | 3 => decide
  | 4 => decide
  | 5 => decide
  | 6 => decide
  | (m + 7) =>
    constructor <;> intro _ <;> simp [run_tail, List.take_nil]

/-- **C2.** In every execution of `Task::run`, the outward edge is produced
exactly once, after the callable returns and before the state is set to
Complete: at every reachable point of the execution (a prefix of the event
list), if `setComplete` has happened then `produceOut` has happened, and if
`produceOut` has happened then the callable has already returned. -/
theorem C2_produce_before_complete (slots : List (Option Nat)) :
    (run_events slots).count RunEvent.produceOut = 1 ∧
    (run_events slots).count RunEvent.setComplete = 1 ∧
    ∀ pre suf, run_events slots = pre ++ suf →
      (RunEvent.produceOut ∈ pre → RunEvent.callCallable ∈ pre) ∧
      (RunEvent.setComplete ∈ pre → RunEvent.produceOut ∈ pre) := by
  have hA := awaits_only_awaitEdge slots
  set A := slots.enum.filterMap fun p =>
    if p.2.isSome then some (RunEvent.awaitEdge p.1) else none with hAdef
  have hnotA : ∀ e, (∀ i, e ≠ RunEvent.awaitEdge i) → e ∉ A := by
    intro e hne he
    obtain ⟨i, hi⟩ := hA e he
    exact hne i hi
  have hcount : ∀ e, (∀ i, e ≠ RunEvent.awaitEdge i) →
      (run_events slots).count e = run_tail.count e := by
    intro e hne
    rw [run_events, List.count_append]
    have : A.count e = 0 := List.count_eq_zero.mpr (hnotA e hne)
    rw [hAdef] at this
    omega
  refine ⟨?_, ?_, ?_⟩
  · rw [hcount RunEvent.produceOut (fun i => by simp)]; decide
  · rw [hcount RunEvent.setComplete (fun i => by simp)]; decide
  · intro pre suf h
    have hpre : pre = A.take pre.length ++ run_tail.take (pre.length - A.length) := by
      conv_lhs => rw [← List.take_left pre suf, ← h]
      rw [run_events, ← hAdef, List.take_append_eq_append_take]
    constructor
    · intro hmem
      rw [hpre] at hmem ⊢
      rcases List.mem_append.mp hmem with hin | hin
      · exact absurd (List.mem_of_mem_take hin)
          (hnotA RunEvent.produceOut (fun i => by simp))
      · exact List.mem_append_right _ ((run_tail_take_order _).1 hin)
    · intro hmem
      rw [hpre] at hmem ⊢
      rcases List.mem_append.mp hmem with hin | hin
      · exact absurd (List.mem_of_mem_take hin)
          (hnotA RunEvent.setComplete (fun i => by simp))
      · exact List.mem_append_right _ ((run_tail_take_order _).2 hin)

/-- Witness for C2: in the run of scenario S2's task `T1` (one wired inward
slot), the prefix that ends just after `setComplete` contains `produceOut`,
and the prefix that ends just after `produceOut` contains `callCallable`. -/
theorem C2_witness :
    RunEvent.produceOut ∈
      [RunEvent.awaitEdge 0, RunEvent.setRunning, RunEvent.recordStart,
       RunEvent.callCallable, RunEvent.recordEnd, RunEvent.produceOut,
       RunEvent.setComplete] :=
  ((C2_produce_before_complete [some 0]).2.2
    [RunEvent.awaitEdge 0, RunEvent.setRunning, RunEvent.recordStart,
     RunEvent.callCallable, RunEvent.recordEnd, RunEvent.produceOut,
     RunEvent.setComplete]
    [RunEvent.notifyWaiters] (by decide)).2 (by decide)

/-- **C3, divergence with the code.** The claim (and the doc comments of
`Task::run` and `ITask::run` themselves) place the end-timestamp recording
after producing on the outward edge; the code calls `set_end_time` *before*
`SuperNode::set_out_edge_data`.  Evaluated on a zero-input task (scenario
S1's producer `P`), the event list records the end timestamp strictly
before producing the outward edge. -/
theorem C3_end_time_recorded_before_produce :
    run_events [] =
      [RunEvent.setRunning, RunEvent.recordStart, RunEvent.callCallable,
       RunEvent.recordEnd, RunEvent.produceOut, RunEvent.setComplete,
       RunEvent.notifyWaiters] ∧
    (run_events []).indexOf RunEvent.recordEnd <
      (run_events []).indexOf RunEvent.produceOut := by
  decide

/-! ## `Edge<T>` (Edge.h / IEdge.h)

The edge's observable state is its value slot (`T data_{}`,
value-initialised) and the `is_retrievable_` latch.  The condition
variable, mutex and owner pointer do not affect the value semantics
modelled here. -/

/-- The value slot and latch of an `Edge<T>`. -/
structure EdgeState (T : Type) where
  data : T
  retrievable : Bool
deriving DecidableEq

/-- `Edge<T>::set_data(const T&)` (Edge.h, lines 59-63): unconditionally
stores the argument in `data_`, then `set_as_retrievable()` stores `true`
into the latch and notifies waiters.  There is no guard against a second
call. -/
def set_data {T : Type} (e : EdgeState T) (v : T) : EdgeState T :=
  { e with data := v, retrievable := true }

/-- `Edge<T>::get_data()` (Edge.h, lines 74-77): returns a copy of `data_`
without blocking or checking the latch. -/
def get_data {T : Type} (e : EdgeState T) : T :=
  e.data

/-- `IEdge::is_retrievable()` (IEdge.h): reads the latch. -/
def is_retrievable {T : Type} (e : EdgeState T) : Bool :=
  e.retrievable

/-- **C5, divergence with the claim.** On a fresh `Edge<int>`, after
`set_data(100)` the edge is retrievable; a second call `set_data(200)`
*overwrites* the stored value, so a subsequent read observes `200`, not the
first written value `100` — the repository's own test
`EdgeTest.SetDataOverwrites` expects exactly this overwrite. -/
theorem C5_counterexample :
    is_retrievable (set_data (⟨0, false⟩ : EdgeState Int) 100) = true ∧
    get_data (set_data (set_data (⟨0, false⟩ : EdgeState Int) 100) 200) = 200 ∧
    get_data (set_data (set_data (⟨0, false⟩ : EdgeState Int) 100) 200) ≠ 100 := by
  decide

/-- **C5 (amended).** A second call to `produce` (`set_data`) is not a
silent no-op on the value slot: it leaves the latch `true` and overwrites
the stored value, and every subsequent read observes the most recent
write. -/
theorem C5_second_produce_overwrites {T : Type} (e : EdgeState T) (v1 v2 : T) :
    get_data (set_data (set_data e v1) v2) = v2 ∧
    is_retrievable (set_data (set_data e v1) v2) = true ∧
    is_retrievable (set_data e v1) = true :=
  ⟨rfl, rfl, rfl⟩

/-! ## `ThreadPool` (ThreadPool.h)

The pool's observable state is the FIFO queue of submitted closures
(tokens), the `active_task_count_` counter (a C++ `std::atomic<int>`,
hence `Int`), whether an `on_complete_` callback was configured, and how
often it has been invoked.  The pool is modelled sequentially: one
operation — a submission, a worker draining one closure, or a cancellation
— happens at a time, which is the interleaving semantics the queue lock
and wait mutex enforce. -/

/-- Observable state of a `ThreadPool`. -/
structure PoolState where
  queue : List Nat
  outstanding : Int
  fires : Nat
  hasCallback : Bool
deriving DecidableEq

/-- A freshly constructed pool: empty queue, zero counter, callback
configured or not, never yet fired. -/
def init_pool (cb : Bool) : PoolState :=
  ⟨[], 0, 0, cb⟩

/-- `ThreadPool::add_task` (ThreadPool.h, lines 97-118).  The argument is
`none` for a null callable (a null function pointer or empty
`std::function`, the two cases the compile-time check can reject) and
`some f` otherwise.  A null callable is rejected with `false`; otherwise
the closure is appended to the back of the queue, `active_task_count_` is
incremented by one, one worker is signalled, and `true` is returned. -/
def add_task (st : PoolState) (fn : Option Nat) : Bool × PoolState :=
  match fn with
  | none => (false, st)
  | some f => (true, { st with queue := st.queue ++ [f], outstanding := st.outstanding + 1 })

/-- `ThreadPool::clear_queued_tasks` (ThreadPool.h, lines 128-135): under
the queue lock, decrement `active_task_count_` by the current queue size
and (if the queue is non-empty) replace it by an empty queue.  No waiter
notification, no callback. -/
def clear_queued_tasks (st : PoolState) : PoolState :=
  { st with queue := [], outstanding := st.outstanding - st.queue.length }

/-- `ThreadPool::execute_task` (ThreadPool.h, lines 247-270), the body of
one worker iteration: pop the front closure if any; after running it,
decrement `active_task_count_`, and if the counter is now zero invoke the
`on_complete_` callback (when configured) and wake all `wait`ers. -/
def execute_task (st : PoolState) : PoolState :=
  match st.queue with
  | [] => st
  | _ :: rest =>
    let oc := st.outstanding - 1
    { st with
      queue := rest
      outstanding := oc
      fires := if oc = 0 then (if st.hasCallback then st.fires + 1 else st.fires) else st.fires }

/-- One observable pool operation. -/
inductive PoolEvent where
  /-- a call to `add_task` with the given (possibly null) callable -/
  | submit (fn : Option Nat)
  /-- a worker dequeues the front closure, runs it to completion and does
  the `execute_task` bookkeeping -/
  | work
  /-- a call to `clear_queued_tasks` -/
  | cancel
deriving DecidableEq

/-- The pool state after one operation. -/
def pool_step (st : PoolState) : PoolEvent → PoolState
  | PoolEvent.submit fn => (add_task st fn).2
  | PoolEvent.work => execute_task st
  | PoolEvent.cancel => clear_queued_tasks st

/-- The pool state after a sequence of operations. -/
def pool_run (st : PoolState) (tr : List PoolEvent) : PoolState :=
  tr.foldl pool_step st

/-- Number of times along a trace that the outstanding-work counter
returns from a positive value to zero. -/
def zero_crossings (st : PoolState) : List PoolEvent → Nat
  | [] => 0
  | e :: tr =>
    (if st.outstanding > 0 ∧ (pool_step st e).outstanding = 0 then 1 else 0) +
      zero_crossings (pool_step st e) tr

/-- Number of times along a trace that a *worker's* completion of a
closure takes the outstanding-work counter from a positive value to
zero. -/
def work_crossings (st : PoolState) : List PoolEvent → Nat
  | [] => 0
  | e :: tr =>
    (if e = PoolEvent.work ∧ st.outstanding > 0 ∧ (pool_step st e).outstanding = 0
      then 1 else 0) + work_crossings (pool_step st e) tr

/-- **C6.** `add_task` rejects a null callable, returning `false` and
leaving the queue, the counter, and everything else unchanged; a non-null
callable is accepted with `true`, appended to the back of the queue, and
the outstanding counter grows by exactly one while the rest of the state
is untouched. -/
theorem C6_add_task_null_and_accept (st : PoolState) (f : Nat) :
    (add_task st none).1 = false ∧
    (add_task st none).2 = st ∧
    (add_task st (some f)).1 = true ∧
    (add_task st (some f)).2.queue = st.queue ++ [f] ∧
    (add_task st (some f)).2.outstanding = st.outstanding + 1 ∧
    (add_task st (some f)).2.fires = st.fires ∧
    (add_task st (some f)).2.hasCallback = st.hasCallback :=
  ⟨rfl, rfl, rfl, rfl, rfl, rfl, rfl⟩

/-- **C7.** `clear_queued_tasks` empties the queue, decreases the
outstanding counter by exactly the number of closures queued at the time
of the call, and changes nothing else; when the queue is already empty it
leaves the whole state unchanged. -/
theorem C7_clear_queued_tasks_spec (st : PoolState) :
    (clear_queued_tasks st).queue = [] ∧
    (clear_queued_tasks st).outstanding = st.outstanding - st.queue.length ∧
    (clear_queued_tasks st).fires = st.fires ∧
    (clear_queued_tasks st).hasCallback = st.hasCallback ∧
    (st.queue = [] → clear_queued_tasks st = st) := by
  refine ⟨rfl, rfl, rfl, rfl, ?_⟩
  intro h
  cases st with
  | mk q c fi cb =>
    simp only at h
    subst h
    simp [clear_queued_tasks]

/-- Witness for C7: cancelling on a concrete pool whose queue holds two
closures drops both and lowers the counter from 2 to 0; the no-op clause
applies to the resulting empty pool. -/
theorem C7_witness :
    (clear_queued_tasks ⟨[4, 7], 2, 1, true⟩).queue = [] ∧
    (clear_queued_tasks ⟨[4, 7], 2, 1, true⟩).outstanding = 0 ∧
    clear_queued_tasks ⟨[], 5, 1, true⟩ = ⟨[], 5, 1, true⟩ := by
  refine ⟨(C7_clear_queued_tasks_spec ⟨[4, 7], 2, 1, true⟩).1, ?_, ?_⟩
  · have h := (C7_clear_queued_tasks_spec ⟨[4, 7], 2, 1, true⟩).2.1
    rw [h]; decide
  · exact (C7_clear_queued_tasks_spec ⟨[], 5, 1, true⟩).2.2.2.2 rfl

/-- **C8, divergence with the claim.** The counter's return from positive
to zero need not fire the callback: submitting one closure and then
cancelling it takes the counter from 1 back to 0 — one zero-crossing —
yet the callback never fires, because `clear_queued_tasks` decrements the
counter without the callback/notify step of `execute_task`. -/
theorem C8_counterexample :
    zero_crossings (init_pool true)
      [PoolEvent.submit (some 7), PoolEvent.cancel] = 1 ∧
    (pool_run (init_pool true)
      [PoolEvent.submit (some 7), PoolEvent.cancel]).fires = 0 := by
  decide

/-- Invariant of sequential pool traces: the counter equals the queue
length (every accepted closure is either queued or already finished), and
the callback stays configured. -/
def PoolInv (st : PoolState) : Prop :=
  st.outstanding = st.queue.length ∧ st.hasCallback = true

theorem pool_fires_eq_work_crossings :
    ∀ (tr : List PoolEvent) (st : PoolState), PoolInv st →
      PoolInv (pool_run st tr) ∧
      (pool_run st tr).fires = st.fires + work_crossings st tr := by
  intro tr
  induction tr with
  | nil => intro st hinv; exact ⟨hinv, by simp [pool_run, work_crossings]⟩
  | cons e rest ih =>
    intro st hinv
    obtain ⟨hcnt, hcb⟩ := hinv
    have hstep : PoolInv (pool_step st e) ∧
        (pool_step st e).fires = st.fires +
          (if e = PoolEvent.work ∧ st.outstanding > 0 ∧
            (pool_step st e).outstanding = 0 then 1 else 0) := by
      match e with
      | PoolEvent.submit none =>
        refine ⟨⟨hcnt, hcb⟩, ?_⟩
        simp [pool_step, add_task]
      | PoolEvent.submit (some f) =>
        refine ⟨⟨?_, hcb⟩, ?_⟩
        · simp [pool_step, add_task, hcnt]
        · simp [pool_step, add_task]
      | PoolEvent.work =>
        match hq : st.queue with
        | [] =>
          have h0 : st.outstanding = 0 := by rw [hcnt, hq]; rfl
          refine ⟨⟨?_, ?_⟩, ?_⟩ <;>
            simp [pool_step, execute_task, hq, hcnt, hcb, h0]
        | c :: cs =>
          have hpos : st.outstanding = (cs.length : Int) + 1 := by
            rw [hcnt, hq]; simp
          have houts : (pool_step st PoolEvent.work).outstanding = st.outstanding - 1 := by
            simp [pool_step, execute_task, hq]
          have hfir : (pool_step st PoolEvent.work).fires =
              if st.outstanding - 1 = 0 then st.fires + 1 else st.fires := by
            simp [pool_step, execute_task, hq, hcb]
          refine ⟨⟨?_, ?_⟩, ?_⟩
          · rw [houts]
            have hqr : (pool_step st PoolEvent.work).queue = cs := by
              simp [pool_step, execute_task, hq]
            rw [hqr, hpos]
            simp
          · simp [pool_step, execute_task, hq, hcb]
          · rw [hfir, houts]
            by_cases hone : st.outstanding - 1 = 0
            · have hgt : st.outstanding > 0 := by omega
              simp [hone, hgt]
            · have hnc : ¬ (PoolEvent.work = PoolEvent.work ∧
                  st.outstanding > 0 ∧ st.outstanding - 1 = 0) := by
                intro hctr
                exact hone hctr.2.2
              simp only [hone, if_false, hnc, if_neg hnc]
              simp [hone]
      | PoolEvent.cancel =>
        refine ⟨⟨?_, hcb⟩, ?_⟩
        · simp [pool_step, clear_queued_tasks, hcnt]
        · simp [pool_step, clear_queued_tasks]
    obtain ⟨hinv1, hfires1⟩ := hstep
    obtain ⟨hinvR, hfiresR⟩ := ih (pool_step st e) hinv1
    refine ⟨hinvR, ?_⟩
    show (pool_run (pool_step st e) rest).fires = _
    rw [hfiresR, hfires1, work_crossings]
    omega

/-- Along a trace with no submissions, a pool that starts empty stays
empty and its counter stays at zero, so no positive-to-zero return of the
counter ever happens. -/
theorem pool_no_submit_no_crossing :
    ∀ (tr : List PoolEvent) (st : PoolState),
      (∀ fn, PoolEvent.submit fn ∉ tr) →
      st.queue = [] → st.outstanding = 0 →
      work_crossings st tr = 0 := by
  intro tr
  induction tr with
  | nil => intro st _ _ _; rfl
  | cons e rest ih =>
    intro st hns hq hc
    have hstep : pool_step st e = st := by
      match e with
      | PoolEvent.submit fn => exact absurd (List.mem_cons_self _ _) (hns fn)
      | PoolEvent.work => simp [pool_step, execute_task, hq]
      | PoolEvent.cancel =>
        cases st with
        | mk q c fi cb =>
          simp only at hq hc
          subst hq; subst hc
          simp [pool_step, clear_queued_tasks]
    rw [work_crossings, hstep]
    have hrest : work_crossings st rest = 0 :=
      ih st (fun fn hfn => hns fn (List.mem_cons_of_mem _ hfn)) hq hc
    rw [hrest, hc]
    simp

/-- **C8 (amended).** On a pool with a configured callback, the callback
fires exactly once each time a *worker's* completion of a closure returns
the outstanding counter from a positive value to zero — once per
submit-drain cycle — and a pool to which no task was submitted never
fires it.  (A return to zero caused by `clear_queued_tasks` fires no
callback, per `C8_counterexample`.) -/
theorem C8_callback_once_per_drain (tr : List PoolEvent) :
    (pool_run (init_pool true) tr).fires = work_crossings (init_pool true) tr ∧
    ((∀ fn, PoolEvent.submit fn ∉ tr) → (pool_run (init_pool true) tr).fires = 0) := by
  have hinv : PoolInv (init_pool true) := ⟨rfl, rfl⟩
  obtain ⟨_, hfires⟩ := pool_fires_eq_work_crossings tr (init_pool true) hinv
  refine ⟨by rw [hfires]; simp [init_pool], ?_⟩
  intro hns
  rw [hfires, pool_no_submit_no_crossing tr (init_pool true) hns rfl rfl]
  simp [init_pool]

/-- Witness for C8 (amended): two submit-drain cycles fire the callback
twice (once per cycle), and a trace that only cancels and idles never
fires it. -/
theorem C8_witness :
    (pool_run (init_pool true)
      [PoolEvent.submit (some 1), PoolEvent.work,
       PoolEvent.submit (some 2), PoolEvent.work]).fires =
      work_crossings (init_pool true)
        [PoolEvent.submit (some 1), PoolEvent.work,
         PoolEvent.submit (some 2), PoolEvent.work] ∧
    (pool_run (init_pool true) [PoolEvent.cancel, PoolEvent.work]).fires = 0 :=
  ⟨(C8_callback_once_per_drain
      [PoolEvent.submit (some 1), PoolEvent.work,
       PoolEvent.submit (some 2), PoolEvent.work]).1,
   (C8_callback_once_per_drain [PoolEvent.cancel, PoolEvent.work]).2
     (by intro fn h; simp at h)⟩

/-! ## Value semantics of `Task::run` and the S2 executor scenario

`task_run` embeds the data effects of `Task::run` (Task.h) for a task
whose inputs are all `int`: the await loop blocks until every *non-null*
inward edge is retrievable (`if (edge) edge->wait_until_retrievable()`),
then the callable is invoked on the values collected positionally by
`get_inward_edge_value<Idx>` (Node.h, lines 141-151), which returns the
edge's data for a wired slot and a default-constructed value (`int()`,
i.e. `0`) for a null slot.  In the sequential one-worker model, a blocked
await is `none` (the closure never finishes). -/

/-- The positional input values `run_impl` passes to the callable:
`get_inward_edge_value<Idx>` per slot — edge data if the slot is wired,
default-constructed `int()` otherwise. -/
def collect_inputs (store : Nat → EdgeState Int) (slots : List (Option Nat)) : List Int :=
  slots.map fun s =>
    match s with
    | none => (0 : Int)
    | some e => get_data (store e)

/-- The await loop of `Task::run`: every non-null inward edge must be
retrievable; null slots are skipped (`if (edge)`). -/
def awaits_pass (store : Nat → EdgeState Int) (slots : List (Option Nat)) : Bool :=
  slots.all fun s =>
    match s with
    | none => true
    | some e => is_retrievable (store e)

/-- The value produced by one execution of `Task::run` on edge store
`store`: `none` when the task would block forever on an unlatched inward
edge, otherwise the callable applied to the collected inputs. -/
def task_run (call : List Int → Int) (store : Nat → EdgeState Int)
    (slots : List (Option Nat)) : Option Int :=
  if awaits_pass store slots then some (call (collect_inputs store slots)) else none

/-- **C10.** A declared input slot with no edge attached neither blocks
`run()` nor contributes a real value: the callable receives a
default-constructed `int()` (= 0) in that position, and execution proceeds
exactly as if the slot were wired to an edge `e'` already latched with the
default value — the run's outcome is identical. -/
theorem C10_null_slot_default_input (call : List Int → Int)
    (store : Nat → EdgeState Int) (slots : List (Option Nat)) (j e' : Nat)
    (hj : slots.get? j = some none) (he' : store e' = ⟨0, true⟩) :
    collect_inputs store slots = collect_inputs store (slots.set j (some e')) ∧
    awaits_pass store slots = awaits_pass store (slots.set j (some e')) ∧
    task_run call store slots = task_run call store (slots.set j (some e')) := by
  have key : ∀ (sl : List (Option Nat)) (k : Nat), sl.get? k = some none →
      collect_inputs store sl = collect_inputs store (sl.set k (some e')) ∧
      awaits_pass store sl = awaits_pass store (sl.set k (some e')) := by
    intro sl
    induction sl with
    | nil => intro k hk; simp at hk
    | cons s rest ih =>
      intro k hk
      match k with
      | 0 =>
        simp only [List.get?] at hk
        injection hk with hk
        subst hk
        refine ⟨?_, ?_⟩
        · simp [collect_inputs, he', get_data]
        · simp [awaits_pass, he', is_retrievable]
      | (k' + 1) =>
        simp only [List.get?] at hk
        obtain ⟨h1, h2⟩ := ih k' hk
        refine ⟨?_, ?_⟩
        · simp only [List.set, collect_inputs, List.map_cons]
          rw [collect_inputs] at h1
          rw [h1]
          rfl
        · simp only [List.set, awaits_pass, List.all_cons]
          rw [awaits_pass] at h2
          rw [h2]
          rfl
  obtain ⟨h1, h2⟩ := key slots j hj
  refine ⟨h1, h2, ?_⟩
  rw [task_run, task_run, h1, h2]

/-- Witness for C10: a two-slot task whose slot 0 is null and slot 1 is
wired to edge 9; wiring slot 0 instead to edge 3, latched with the default
value 0, leaves the run's result unchanged. -/
theorem C10_witness :
    task_run (fun args => args.foldr (· + ·) 0)
      (fun e => if e = 3 then ⟨0, true⟩ else ⟨7, true⟩) [none, some 9] =
    task_run (fun args => args.foldr (· + ·) 0)
      (fun e => if e = 3 then ⟨0, true⟩ else ⟨7, true⟩)
      ([none, some 9].set 0 (some 3)) :=
  (C10_null_slot_default_input (fun args => args.foldr (· + ·) 0)
    (fun e => if e = 3 then ⟨0, true⟩ else ⟨7, true⟩) [none, some 9] 0 3
    (by decide) (by decide)).2.2

/-- `Task::run`'s effect on the graph's edges and the task's `result_`
member: run the callable on the collected inputs (blocking as `task_run`),
then `SuperNode::set_out_edge_data(result_)` latches the task's own
outward edge.  Each node `i` owns exactly one outward edge, identified
here by the owner's id `i`. -/
def run_node (g : Graph) (call : Nat → List Int → Int)
    (store : Nat → EdgeState Int) (i : Nat) :
    Option ((Nat → EdgeState Int) × Int) :=
  match task_run (call i) store (g.slots i) with
  | none => none
  | some r => some (fun e => if e = i then set_data (store e) r else store e, r)

/-- The single-worker FIFO drain of the pool after
`ThreadPoolExecutor::run` has submitted one `task->run()` closure per node
in `order`: the worker pops and runs the closures front to back.  The
second component records each finished task's `result_`; the whole run is
`none` if some closure blocks forever. -/
def drain_tasks (g : Graph) (call : Nat → List Int → Int) :
    List Nat → ((Nat → EdgeState Int) × (Nat → Option Int)) →
    Option ((Nat → EdgeState Int) × (Nat → Option Int))
  | [], st => some st
  | i :: rest, (store, results) =>
    match run_node g call store i with
    | none => none
    | some (store2, r) =>
      drain_tasks g call rest (store2, fun m => if m = i then some r else results m)

/-- Insertion of a task into a list already sorted by ascending key —
helper for the embedding of `std::sort` in `ThreadPoolExecutor::run`. -/
def insert_by_key (key : Nat → Nat) (x : Nat) : List Nat → List Nat
  | [] => [x]
  | y :: ys => if key x < key y then x :: y :: ys else y :: insert_by_key key x ys

/-- `std::sort(tasks.begin(), tasks.end(), [](auto a, auto b) { return *a < *b; })`
in `ThreadPoolExecutor::run`, where `operator<` compares cached
reachabilities: a sort of the task set by ascending reachability.
(`std::sort` is unspecified up to ties; on the scenario below all keys are
distinct, so every comparison sort produces this same order.) -/
def sort_by_key (key : Nat → Nat) : List Nat → List Nat
  | [] => []
  | x :: xs => insert_by_key key x (sort_by_key key xs)

/-- The callables of scenario S2: `T0` returns `1`; `Ti` (i = 1..4) takes
one `int` and returns `input + 1`. -/
def s2_call : Nat → List Int → Int :=
  fun i args => if i = 0 then 1 else args.headD 0 + 1

/-- `ThreadPoolExecutor::run` followed by the worker drain and `wait()`,
on scenario S2: compute reachability over the submitted set `{0..4}` of
`chainG`, sort the set by ascending cached reachability, submit the run
closures in that order, and drain them FIFO starting from fresh
(unlatched, value-initialised) edges and unset results. -/
def s2_exec : Option ((Nat → EdgeState Int) × (Nat → Option Int)) :=
  drain_tasks chainG s2_call
    (sort_by_key
      (get_reachability chainG
        (compute_reachability chainG 6 [0, 1, 2, 3, 4] (fun _ => 0)))
      [0, 1, 2, 3, 4])
    (fun _ => ⟨0, false⟩, fun _ => none)

/-- Task `i`'s `get_result()` after the S2 execution, `none` if the drain
never completed or never ran `i`. -/
def s2_result (i : Nat) : Option Int :=
  match s2_exec with
  | none => none
  | some st => st.2 i

/-- **C4.** Scenario S2: after the executor runs the five-task chain and
`wait()` returns, `T4.get_result() == 5`, every task finished, and the
cached reachabilities of `T0..T4` are `0,1,2,3,4`. -/
theorem C4_linear_chain_of_five :
    s2_exec.isSome = true ∧
    s2_result 4 = some 5 ∧
    (List.range 5).map
      (get_reachability chainG
        (compute_reachability chainG 6 [0, 1, 2, 3, 4] (fun _ => 0))) =
      [0, 1, 2, 3, 4] := by
  decide

end TaskWeave
